import Mathlib

/-!
Verification of the APPARE dairy-KPI benchmark engine.

Shallow embedding of the data-transformation core of the dashboard
(`src/benchmarkAllevatore.js`, `src/app.js`, and the transformer view in
`src/unnamed/part_002`), together with proofs and refutations of the
specified properties.

Modelling conventions:
* JavaScript strings are modelled as `List Char` (`Str`).
* JavaScript numbers are modelled exactly: `JSNum` distinguishes `NaN`,
  the two infinities and finite values; finite values are idealised as
  rationals (the spec promises nothing beyond ordinary floating point,
  and the claims under scrutiny are about exact structure, not rounding).
* `Math.log` / `Math.exp` / `Math.pow` with fractional exponent are
  modelled by the corresponding real functions, so the aggregation and
  binning functions that use them live over `ℝ`.
* DOM reads (`document.getElementById(...).value`) and module globals
  (`state`, `RAW`, `window.CAO_RAW`) are passed explicitly as an
  environment record, mirroring exactly the defaulting the code performs
  on them.
-/

/-- JavaScript strings, modelled as lists of characters. -/
abbrev Str := List Char

/-- A JavaScript number: `NaN`, `+Infinity`, `-Infinity` or a finite value
(idealised as a rational). -/
inductive JSNum where
  | nan : JSNum
  | inf : JSNum
  | ninf : JSNum
  | fin : ℚ → JSNum
deriving DecidableEq

namespace JSNum

/-- JavaScript `isNaN` on a number. -/
def jsIsNaN : JSNum → Bool
  | nan => true
  | _ => false

/-- JavaScript `Number.isFinite` / global `isFinite` on a number. -/
def jsIsFinite : JSNum → Bool
  | fin _ => true
  | _ => false

/-- The IEEE `<` comparison used by JavaScript: any comparison with `NaN`
is false, `-Infinity` is below everything else, `+Infinity` above. -/
def jsLt : JSNum → JSNum → Bool
  | nan, _ => false
  | _, nan => false
  | ninf, ninf => false
  | ninf, _ => true
  | _, ninf => false
  | inf, _ => false
  | _, inf => true
  | fin a, fin b => a < b

/-- The IEEE `===` comparison on numbers: `NaN` equals nothing. -/
def jsEq : JSNum → JSNum → Bool
  | nan, _ => false
  | _, nan => false
  | inf, inf => true
  | ninf, ninf => true
  | fin a, fin b => a == b
  | _, _ => false

/-- Subtraction `x - 1` on a JavaScript number (used for `(+r.Mese) - 1`). -/
def sub1 : JSNum → JSNum
  | fin q => fin (q - 1)
  | x => x

end JSNum

/-- JavaScript `Math.round`: round half away from zero upwards,
`Math.round x = ⌊x + 0.5⌋`. -/
def jsRound (q : ℚ) : ℤ := ⌊q + 1 / 2⌋

/-- Lower-case a JavaScript string (`String.prototype.toLowerCase`,
restricted to the Latin letters that occur in the datasets). -/
def lowerStr (s : Str) : Str := s.map Char.toLower

-- ============================================================================
-- percentileRank (two divergent copies in the source)
-- ============================================================================

/-- Function `percentileRank` from `src/benchmarkAllevatore.js` lines 483-497 (the
copy in `src/app.js` lines 350-364 is character-identical).  The source
filters with the non-NaN number test of the source, so infinities pass, and
then sorts; the sort is omitted here because the counting loop below it is
order-independent. -/
def percentileRank (arr : List JSNum) (v : JSNum) : Option ℤ :=
  let nums := arr.filter (fun x => !x.jsIsNaN)
  if nums.length = 0 ∨ v.jsIsNaN then none
  else
    let count := (nums.filter (fun x => x.jsLt v)).length
    let ties := (nums.filter (fun x => !x.jsLt v && x.jsEq v)).length
    some (jsRound (((count : ℚ) + 1 / 2 * (ties : ℚ)) / (nums.length : ℚ) * 100))

/-- Function `percentileRank` from the transformer view (`src/unnamed/part_002`
lines 165-179): this copy filters with `Number.isFinite` and also rejects
a non-finite target. -/
def percentileRankT (arr : List JSNum) (v : JSNum) : Option ℤ :=
  let nums := arr.filter (fun x => x.jsIsFinite)
  if nums.length = 0 ∨ !v.jsIsFinite then none
  else
    let count := (nums.filter (fun x => x.jsLt v)).length
    let ties := (nums.filter (fun x => !x.jsLt v && x.jsEq v)).length
    some (jsRound (((count : ℚ) + 1 / 2 * (ties : ℚ)) / (nums.length : ℚ) * 100))

-- ============================================================================
-- Lactation mapping (benchmarkAllevatore.js lines 622-651)
-- ============================================================================

/-- Function `lacPosFromMonth` (lines 622-624): position (0..11) of a 0-based month
inside the October-September lactation cycle. -/
def lacPosFromMonth (m : ℕ) : ℕ := (m + 3) % 12

/-- The lactation start year derivation used by `getLactationStartsFromRows`
(line 643): October-December belong to the current year, January-September
to the previous one. -/
def lacStartYear (y : ℤ) (m : ℕ) : ℤ := if 9 ≤ m then y else y - 1

-- ============================================================================
-- Raw rows, KPI aliases and the normaliser rowsForKpi
-- (benchmarkAllevatore.js lines 36-47 and 358-373)
-- ============================================================================

/-- A raw sample row as it appears in `RAW`.  `Caseificio = []` models a
missing/empty (falsy) caseificio field; the numeric fields hold the result
of the JavaScript numeric coercion (`+r.Anno` etc.) applied to the raw
JSON value. -/
structure RawRow where
  Azienda : Str
  Caseificio : Str
  Provincia : Str
  KPI : Str
  Anno : JSNum
  Mese : JSNum
  Valore : JSNum
deriving DecidableEq

/-- The `KPI_ALIASES` table (lines 36-47). -/
def KPI_ALIASES : List (Str × List Str) :=
  [("cellule".toList, ["cellule".toList, "scc".toList, "cellule somatiche".toList,
      "cellule somatiche (scc)".toList]),
   ("carica".toList, ["carica".toList, "cbt".toList, "carica batterica".toList,
      "carica batterica (cbt)".toList]),
   ("urea".toList, ["urea".toList]),
   ("grassi".toList, ["grassi".toList, "fat".toList, "% fat".toList]),
   ("proteine".toList, ["proteine".toList, "protein".toList, "% prot".toList]),
   ("caseina".toList, ["caseina".toList, "caseine".toList]),
   ("lattosio".toList, ["lattosio".toList]),
   ("crio".toList, ["crio".toList, "crio ft".toList]),
   ("ph".toList, ["ph".toList]),
   ("nacl".toList, ["nacl".toList, "cloruro di sodio".toList])]

/-- Alias lookup `KPI_ALIASES[k] || [k]`: alias list of a KPI key, defaulting to the key
itself. -/
def kpiAliases (k : Str) : List Str :=
  ((KPI_ALIASES.find? (fun p => p.1 = k)).map (fun p => p.2)).getD [k]

/-- A record produced by `rowsForKpi` (`{Azienda, year, month, value}`).
The year/month fields keep the unvalidated JavaScript numbers the code
stores in them. -/
structure KpiRow where
  Azienda : Str
  year : JSNum
  month : JSNum
  value : JSNum
deriving DecidableEq

/-- Function `rowsForKpi` from `src/benchmarkAllevatore.js` lines 358-373: filters
`raw` by KPI alias (case-insensitively) and keeps rows whose `Valore` is
finite and whose `Anno` and `Mese - 1` are not `NaN`.  No range check is
performed on the month. -/
def rowsForKpi (raw : List RawRow) (k : Str) : List KpiRow :=
  let aliases := kpiAliases k
  raw.filterMap (fun r =>
    if lowerStr r.KPI ∈ aliases then
      let y := r.Anno
      let m := r.Mese.sub1
      let v := r.Valore
      if v.jsIsFinite ∧ ¬y.jsIsNaN ∧ ¬m.jsIsNaN then
        some ⟨r.Azienda, y, m, v⟩
      else none
    else none)

-- ============================================================================
-- Histogram binning (benchmarkAllevatore.js lines 1994-2054)
-- ============================================================================

/-- Model of `Math.min(...vals)` on a non-empty array (the caller at line 1982
guards the empty case); `0` is an arbitrary value for `[]`. -/
def listMin : List ℚ → ℚ
  | [] => 0
  | x :: xs => xs.foldl min x

/-- Model of `Math.max(...vals)` on a non-empty array; `0` is arbitrary for `[]`. -/
def listMax : List ℚ → ℚ
  | [] => 0
  | x :: xs => xs.foldl max x

/-- Function `freedmanBins` (lines 1994-2015): Freedman-Diaconis bin count, clamped
into `[6, 15]`.  `Math.pow(n, -1/3)` is modelled by the real power
function, so the returned integer is specified but not computable.  The
`isFinite` guards of the source are vacuous here because the values are
(exact) rationals; the `(h || 1)` and `|| 6` fallbacks are kept as the
zero tests they amount to. -/
noncomputable def freedmanBins (values : List ℚ) : ℤ :=
  let n := values.length
  if n < 2 then 6
  else
    let s := values.insertionSort (fun a b => a ≤ b)
    let q1 := s.getD ((n - 1) / 4) 0
    let q3 := s.getD (3 * (n - 1) / 4) 0
    let iqr0 := q3 - q1
    let iqr := if iqr0 = 0 then
        (if (s.getD (n - 1) 0 - s.getD 0 0) / 4 = 0 then 1
         else (s.getD (n - 1) 0 - s.getD 0 0) / 4)
      else iqr0
    let h : ℝ := 2 * (iqr : ℝ) * (n : ℝ) ^ (-(1 / 3) : ℝ)
    let b : ℤ := ⌈((s.getD (n - 1) 0 - s.getD 0 0 : ℚ) : ℝ) / (if h = 0 then 1 else h)⌉
    let b1 := if b = 0 then 6 else b
    let b2 := if b1 < 6 then 6 else b1
    if b2 > 15 then 15 else b2

/-- The clamped bin index `Math.floor((v - mn)/step)` of a value (lines
2049-2051). -/
def binIdx (mn step : ℚ) (bins : ℕ) (v : ℚ) : ℤ :=
  let i := ⌊(v - mn) / step⌋
  let i1 := if (bins : ℤ) ≤ i then (bins : ℤ) - 1 else i
  if i1 < 0 then 0 else i1

/-- The histogram quantities computed by `updateHistogram`. -/
structure Histo where
  bins : ℕ
  step : ℚ
  edges : List ℚ
  centers : List ℚ
  counts : List ℕ

/-- The histogram-computation block of `updateHistogram`
(lines 2017-2054): degenerate constant distributions get a single
synthetic bin, otherwise `bins` evenly spaced bins over `[mn, mx]` with
per-bin membership counts (the counting loop is rendered as a count per
bin index, which computes the same totals). -/
noncomputable def computeHistogram (vals : List ℚ) : Histo :=
  let bins0 := freedmanBins vals
  let mn := listMin vals
  let mx := listMax vals
  if mn = mx then
    { bins := 1, step := 1, edges := [mn - 1 / 2, mn + 1 / 2],
      centers := [mn], counts := [vals.length] }
  else
    let bins := bins0.toNat
    let step0 := (mx - mn) / (bins : ℚ)
    let step := if step0 ≤ 0 then 1 else step0
    { bins := bins,
      step := step,
      edges := (List.range (bins + 1)).map (fun i => mn + (i : ℚ) * step),
      centers := (List.range bins).map (fun i => mn + ((i : ℚ) + 1 / 2) * step),
      counts := (List.range bins).map
        (fun i => (vals.filter (fun v => binIdx mn step bins v = (i : ℤ))).length) }

-- ============================================================================
-- Peer-group selection: getBenchmarkRaw (benchmarkAllevatore.js lines 151-291)
-- ============================================================================

/-- Function `isCaoCaseificio` (lines 533-537): recognises the CAO caseificio up to
case, dots, dashes and whitespace. -/
def isCaoCaseificio (name : Str) : Bool :=
  if name = [] then false
  else
    let n := (lowerStr name).filter (fun c => !(c = '.' || c = '-' || c.isWhitespace))
    decide ("cao".toList <:+: n)

/-- Everything `getBenchmarkRaw` reads from the page and the globals:
`RAW`, the `#benchmarkType` and `#provinciaFilter` select values (`[]`
models a missing/empty value, defaulted by the code), `state.azienda`,
`state.currentKpi`, `window.CAO_RAW` and whether `window.CAO.ensureLoaded`
is available. -/
structure BenchEnv where
  raw : List RawRow
  benchmarkType : Str
  provinciaValue : Str
  azienda : Str
  currentKpi : Str
  caoRaw : List RawRow
  caoLoaderAvailable : Bool

/-- The province-value → province-name mapping (lines 200-204 and
264-268). -/
def provinceNameOf (pv : Str) : Option Str :=
  if pv = "sassari".toList then some ("Sassari".toList)
  else if pv = "nuoro".toList then some ("Nuoro".toList)
  else if pv = "oristano".toList then some ("Oristano".toList)
  else if pv = "cagliari".toList then some ("Cagliari".toList)
  else none

/-- The `selectedCaseificio` search loop (lines 172-178): caseificio of the
first row of the selected azienda that carries a (truthy) caseificio. -/
def findCaseificio (rawRows : List RawRow) (az : Str) : Option Str :=
  (rawRows.find? (fun r => decide (r.Azienda = az ∧ r.Caseificio ≠ []))).map
    (fun r => r.Caseificio)

/-- The CAO supplier-sample selection loop (lines 211-235): keeps `CAO_RAW`
rows matching the KPI aliases and the province filter whose numeric fields
are all finite, rebuilt as benchmark rows.  (The loop also accumulates
per-month sample counts used only for a UI label; that bookkeeping does
not affect the returned rows and is omitted.) -/
def caoSamplesOf (caoRaw : List RawRow) (aliases : List Str)
    (provinceName : Option Str) (kpiKey : Str) : List RawRow :=
  caoRaw.filterMap (fun cr =>
    if lowerStr cr.KPI ∉ aliases then none
    else if provinceName.any (fun pn => decide (cr.Provincia ≠ [] ∧ cr.Provincia ≠ pn)) then none
    else if cr.Anno.jsIsFinite ∧ cr.Mese.jsIsFinite ∧ cr.Valore.jsIsFinite then
      some { Azienda := if cr.Azienda = [] then "Conferitore CAO".toList else cr.Azienda,
             Caseificio := "CAO".toList,
             Provincia := cr.Provincia,
             KPI := kpiKey,
             Anno := cr.Anno, Mese := cr.Mese, Valore := cr.Valore }
    else none)

/-- The shared tail of `getBenchmarkRaw` (lines 260-291): province filter on
the working set, then re-union of the rows of the selected azienda only when
none of them survived. -/
def getBenchmarkRawRest (rawRows filteredRows : List RawRow)
    (provinciaValue azienda : Str) : List RawRow :=
  let provinceValue := if provinciaValue = [] then "tutte".toList else provinciaValue
  let filtered2 :=
    if provinceValue ≠ "tutte".toList then
      match provinceNameOf provinceValue with
      | some pn => filteredRows.filter (fun r => decide (r.Provincia = pn))
      | none => filteredRows
    else filteredRows
  if azienda = [] then filtered2
  else if filtered2.any (fun r => decide (r.Azienda = azienda)) then filtered2
  else filtered2 ++ rawRows.filter (fun r => decide (r.Azienda = azienda))

/-- Function `getBenchmarkRaw` (lines 151-291).  The early `return []` at line 187
corresponds to `caoRaw = []` with the loader available; the loaded CAO
branch (lines 189-250) returns the raw rows of the azienda itself plus the
supplier samples. -/
def getBenchmarkRaw (env : BenchEnv) : List RawRow :=
  let rawRows := env.raw
  if rawRows = [] then rawRows
  else
    let benchmarkMode := if env.benchmarkType = [] then "intraAppare".toList else env.benchmarkType
    if benchmarkMode = "intraCaseificio".toList then
      match (if env.azienda ≠ [] then findCaseificio rawRows env.azienda else none) with
      | some c =>
        if isCaoCaseificio c then
          if env.caoRaw = [] ∧ env.caoLoaderAvailable then []
          else if env.caoRaw ≠ [] then
            let provinceValue := if env.provinciaValue = [] then "tutte".toList else env.provinciaValue
            let provinceName := provinceNameOf provinceValue
            let aziRows := rawRows.filter (fun r => decide (r.Azienda = env.azienda))
            let kpiKey := if env.currentKpi = [] then "cellule".toList else env.currentKpi
            aziRows ++ caoSamplesOf env.caoRaw (kpiAliases kpiKey) provinceName kpiKey
          else getBenchmarkRawRest rawRows rawRows env.provinciaValue env.azienda
        else
          getBenchmarkRawRest rawRows
            (rawRows.filter (fun r => decide (r.Caseificio = c)))
            env.provinciaValue env.azienda
      | none => getBenchmarkRawRest rawRows rawRows env.provinciaValue env.azienda
    else getBenchmarkRawRest rawRows rawRows env.provinciaValue env.azienda

/-- Whether `getBenchmarkRaw` resolves the selected azienda to the CAO
caseificio in `intraCaseificio` mode (the branch at lines 182-250 whose
peer rows are drawn from `CAO_RAW` instead of `RAW`). -/
def takesCaoPath (env : BenchEnv) : Bool :=
  decide ((if env.benchmarkType = [] then "intraAppare".toList else env.benchmarkType)
      = "intraCaseificio".toList) &&
  (match (if env.azienda ≠ [] then findCaseificio env.raw env.azienda else none) with
   | some c => isCaoCaseificio c
   | none => false)

-- ============================================================================
-- JavaScript number→string and string→number conversions for integers
-- (used implicitly by the string grouping keys of monthlyAggregate and
-- getYMMap)
-- ============================================================================

/-- Decimal digits of `n`, least significant first (`fuel` bounds the
recursion; `fuel = n` always suffices). -/
def natStrAux (fuel n : ℕ) : List Char :=
  match fuel with
  | 0 => []
  | f + 1 => if n = 0 then [] else Nat.digitChar (n % 10) :: natStrAux f (n / 10)

/-- JavaScript stringification of a non-negative integer. -/
def natStr (n : ℕ) : Str := if n = 0 then ['0'] else (natStrAux n n).reverse

/-- JavaScript stringification of an integer (`String(i)`, as produced by
`i + '|' + ...` template concatenation). -/
def intStr (i : ℤ) : Str := if i < 0 then '-' :: natStr i.natAbs else natStr i.toNat

/-- The numeric value of a decimal digit character. -/
def digitVal (c : Char) : Option ℕ :=
  if '0' ≤ c ∧ c ≤ '9' then some (c.toNat - '0'.toNat) else none

/-- Accumulating decimal parser. -/
def parseNatAux (a : ℕ) : List Char → Option ℕ
  | [] => some a
  | c :: t =>
    match digitVal c with
    | some d => parseNatAux (a * 10 + d) t
    | none => none

/-- Parse a non-negative decimal numeral. -/
def parseNat (l : Str) : Option ℕ := parseNatAux 0 l

/-- JavaScript numeric coercion `+s` restricted to the optionally signed
decimal integer strings that occur as grouping-key parts (on any other
string `+s` is `NaN`, which the call sites never produce). -/
def parseIntStr (l : Str) : Option ℤ :=
  if l.head? = some '-' then (parseNat l.tail).map (fun n => -(n : ℤ))
  else (parseNat l).map (fun n => (n : ℤ))

-- ============================================================================
-- Monthly aggregation (benchmarkAllevatore.js lines 303-349 and 453-474)
-- ============================================================================

/-- Function `isLogKPI` (lines 312-314): KPIs aggregated geometrically. -/
def isLogKPI (k : Str) : Bool := k = "cellule".toList || k = "carica".toList

/-- Function `aggArithmetic` (lines 321-331): arithmetic mean of the finite values,
`null` when there is none. -/
def aggArithmetic (values : List JSNum) : Option ℚ :=
  let fs := values.filterMap (fun v => match v with
    | JSNum.fin q => some q
    | _ => none)
  if fs.length = 0 then none else some (fs.sum / (fs.length : ℚ))

/-- Function `aggGeometric` (lines 339-349): `exp` of the mean of `Math.log` over
the finite strictly positive values, `null` when there is none. -/
noncomputable def aggGeometric (values : List JSNum) : Option ℝ :=
  let pos : List ℚ := values.filterMap (fun v => match v with
    | JSNum.fin q => if 0 < q then some q else none
    | _ => none)
  if pos.length = 0 then none
  else some (Real.exp ((pos.map (fun q => Real.log (q : ℝ))).sum / (pos.length : ℝ)))

/-- A canonical (normalised) record as described by the data model:
integer year and month, value a JavaScript number.  `monthlyAggregate` is
embedded at this record type. -/
structure CanonRec where
  Azienda : Str
  year : ℤ
  month : ℤ
  value : JSNum
deriving DecidableEq

/-- The grouping-key string `r.year + '|' + r.month + '|' + r.Azienda`
(line 458). -/
def keyOf (y m : ℤ) (az : Str) : Str :=
  intStr y ++ '|' :: (intStr m ++ '|' :: az)

/-- The grouping key of a record. -/
def recKey (r : CanonRec) : Str := keyOf r.year r.month r.Azienda

/-- Operation `byKey.get(key).push(r.value)` with `Map` insertion-order semantics:
append the value to the entry of `k`, creating the entry at the end if
missing. -/
def alPush (k : Str) (v : JSNum) : List (Str × List JSNum) → List (Str × List JSNum)
  | [] => [(k, [v])]
  | (k', vs) :: t => if k' = k then (k', vs ++ [v]) :: t else (k', vs) :: alPush k v t

/-- Model of `Map.get` on a string-keyed association list. -/
def alGet {β : Type} (k : Str) : List (Str × β) → Option β
  | [] => none
  | (k', vs) :: t => if k' = k then some vs else alGet k t

/-- The `byKey` map of `monthlyAggregate` (lines 457-461). -/
def groupByKey (recs : List CanonRec) : List (Str × List JSNum) :=
  recs.foldl (fun acc r => alPush (recKey r) r.value acc) []

/-- An aggregated output row of `monthlyAggregate`. -/
structure AggRow where
  Azienda : Str
  year : ℤ
  month : ℤ
  value : ℝ

/-- Selection `useGeo ? aggGeometric(vals) : aggArithmetic(vals)` (line 469): the
aggregation selected for a KPI, with the arithmetic mean coerced into `ℝ`
so both modes share one output type. -/
noncomputable def aggFor (kpi : Str) (vals : List JSNum) : Option ℝ :=
  if isLogKPI kpi then aggGeometric vals
  else (aggArithmetic vals).map (fun q => (q : ℝ))

/-- Function `monthlyAggregate` (lines 453-474): group values by the
year/month/azienda key string, aggregate each group arithmetically or
geometrically according to the KPI, and rebuild rows from the parts of the
key string split at `'|'` (`keyStr.split('|')`, `+parts[0]`, `+parts[1]`,
`parts[2]`).  The arithmetic mean, a rational, is coerced into `ℝ` so
that both aggregation modes share one output type. -/
noncomputable def monthlyAggregate (rawRows : List CanonRec) (kpi : Str) : List AggRow :=
  (groupByKey rawRows).filterMap (fun kv =>
    let parts := kv.1.splitOn '|'
    let az := parts.getD 2 []
    let y := (parseIntStr (parts.getD 0 [])).getD 0
    let m := (parseIntStr (parts.getD 1 [])).getD 0
    (aggFor kpi kv.2).map (fun a => ⟨az, y, m, a⟩))

/-- The values of the canonical records forming the (az, y, m) group, in
input order. -/
def groupVals (recs : List CanonRec) (az : Str) (y m : ℤ) : List JSNum :=
  (recs.filter (fun r => decide (r.Azienda = az ∧ r.year = y ∧ r.month = m))).map
    (fun r => r.value)

/-- The values stored under a grouping key, in input order. -/
def valsOf (recs : List CanonRec) (k : Str) : List JSNum :=
  (recs.filter (fun r => decide (recKey r = k))).map (fun r => r.value)

-- ============================================================================
-- Year-month map and its per-KPI cache (benchmarkAllevatore.js lines
-- 522-526 and 551-572)
-- ============================================================================

/-- Model of `Map.set` on a string-keyed association list: update in place, append
at the end when the key is new. -/
def alSet {β : Type} (k : Str) (v : β) : List (Str × β) → List (Str × β)
  | [] => [(k, v)]
  | (k', v') :: t => if k' = k then (k', v) :: t else (k', v') :: alSet k v t

/-- One entry of the year-month map: `{ year, month, by: Map(Azienda,
value) }`. -/
structure YMEntry where
  year : ℤ
  month : ℤ
  byAz : List (Str × ℝ)

/-- The year-month map from year-month key strings to entries. -/
abbrev YMMap := List (Str × YMEntry)

/-- The `'year-month'` key string `r.year + '-' + r.month` (line 559). -/
def ymKey (y m : ℤ) : Str := intStr y ++ '-' :: intStr m

/-- One iteration of the loop at lines 558-568: ensure the year-month
entry exists, then set the aggregated value of the azienda in it. -/
def ymInsert (mp : YMMap) (r : AggRow) : YMMap :=
  let k := ymKey r.year r.month
  let entry := (alGet k mp).getD ⟨r.year, r.month, []⟩
  alSet k ⟨entry.year, entry.month, alSet r.Azienda r.value entry.byAz⟩ mp

/-- The map built by `getYMMap` on a cache miss (lines 555-568). -/
noncomputable def buildYMMap (kpiRows : List CanonRec) (kpiKey : Str) : YMMap :=
  (monthlyAggregate kpiRows kpiKey).foldl ymInsert []

/-- Function `getYMMap` (lines 551-572), with the `cache.ymByKpi` map passed and
returned explicitly: on a hit the cached map is returned and the rows
argument is ignored; on a miss the map is built from the rows and stored
under the KPI key. -/
noncomputable def getYMMap (cacheYm : List (Str × YMMap)) (kpiRows : List CanonRec)
    (kpiKey : Str) : YMMap × List (Str × YMMap) :=
  match alGet kpiKey cacheYm with
  | some m => (m, cacheYm)
  | none =>
    let m := buildYMMap kpiRows kpiKey
    (m, cacheYm ++ [(kpiKey, m)])

/-- A raw row of azienda `A` in province Sassari. -/
def rowSassari : RawRow :=
  ⟨"A".toList, "X".toList, "Sassari".toList, "cellule".toList,
   JSNum.fin 2023, JSNum.fin 1, JSNum.fin 100⟩

/-- A raw row of the same azienda `A` in province Nuoro. -/
def rowNuoro : RawRow :=
  ⟨"A".toList, "X".toList, "Nuoro".toList, "cellule".toList,
   JSNum.fin 2023, JSNum.fin 2, JSNum.fin 120⟩

/-- Environment: default benchmark mode, province filter set to Sassari,
azienda `A` selected. -/
def benchEnvCE : BenchEnv :=
  ⟨[rowSassari, rowNuoro], [], "sassari".toList, "A".toList, [], [], false⟩


/-- Environment for the witness: no province filter, azienda `A`. -/
def benchEnvW : BenchEnv :=
  ⟨[rowSassari], [], [], "A".toList, [], [], false⟩

/-- Two entity names that collide once the `'|'` separator is re-split. -/
def recsPipe : List CanonRec :=
  [⟨"A|B".toList, 2023, 5, JSNum.fin 1⟩, ⟨"A|C".toList, 2023, 5, JSNum.fin 2⟩]

/-- A one-record input used to witness the aggregation theorems. -/
def recsW : List CanonRec := [⟨"A".toList, 2023, 5, JSNum.fin 4⟩]


-- ============================================================================
-- Theorems
-- ============================================================================

/-- C2: for every non-empty array of finite peer values and every finite
target value, `percentileRank` returns the rounded tie-aware percentile
rank `round((count + 0.5*ties)/N * 100)`, where `N` is the number of
peers, `count` the number of peers strictly below the target and `ties`
the number equal to it; in particular `percentileRank([5,5,5,5], 5) = 50`
and `percentileRank([300,500], 300) = 25`. -/
theorem percentileRank_tie_formula :
    (∀ (peers : List ℚ) (v : ℚ), peers ≠ [] →
      percentileRank (peers.map JSNum.fin) (JSNum.fin v) =
        some (jsRound ((((peers.filter (fun x => x < v)).length : ℚ) +
          1 / 2 * ((peers.filter (fun x => x = v)).length : ℚ)) / (peers.length : ℚ) * 100)))
    ∧ percentileRank (([5, 5, 5, 5] : List ℚ).map JSNum.fin) (JSNum.fin 5) = some 50
    ∧ percentileRank (([300, 500] : List ℚ).map JSNum.fin) (JSNum.fin 300) = some 25 := by
  refine ⟨?_, ?_, ?_⟩
  · intro peers v hne
    have hfil : (peers.map JSNum.fin).filter (fun x => !x.jsIsNaN) = peers.map JSNum.fin := by
      apply List.filter_eq_self.mpr
      intro a ha
      obtain ⟨b, _, rfl⟩ := List.mem_map.mp ha
      rfl
    have hlt : (peers.map JSNum.fin).filter (fun x => x.jsLt (JSNum.fin v)) =
        (peers.filter (fun x => x < v)).map JSNum.fin := by
      rw [List.filter_map]
      rfl
    have hties : (peers.map JSNum.fin).filter
          (fun x => !x.jsLt (JSNum.fin v) && x.jsEq (JSNum.fin v)) =
        (peers.filter (fun x => x = v)).map JSNum.fin := by
      rw [List.filter_map]
      congr 1
      apply List.filter_congr
      intro x _
      show (!decide (x < v) && x == v) = decide (x = v)
      by_cases h : x = v
      · subst h; simp
      · simp [h, beq_iff_eq]
    simp only [percentileRank]
    rw [hfil, hlt, hties]
    simp only [List.length_map]
    rw [if_neg]
    simp only [List.length_eq_zero, JSNum.jsIsNaN]
    push_neg
    refine ⟨hne, by simp⟩
  · simp [percentileRank, JSNum.jsIsNaN, JSNum.jsLt, JSNum.jsEq, jsRound]
    norm_num
  · simp [percentileRank, JSNum.jsIsNaN, JSNum.jsLt, JSNum.jsEq, jsRound]
    norm_num

/-- C3, counterexample: `percentileRank` keeps `Infinity` as a peer
(counting it in `N` and returning `0` instead of the `null` the claim
requires), and accepts an `Infinity` target. -/
theorem percentileRank_infinity_counted :
    percentileRank [JSNum.inf] (JSNum.fin 5) = some 0 ∧
    percentileRank [JSNum.fin 1] JSNum.inf = some 100 := by
  constructor
  · simp [percentileRank, JSNum.jsIsNaN, JSNum.jsLt, JSNum.jsEq, jsRound]
    norm_num
  · simp [percentileRank, JSNum.jsIsNaN, JSNum.jsLt, JSNum.jsEq, jsRound]
    norm_num

/-- C3, amended: the allevatore copy of `percentileRank` filters its
peers only to non-NaN numbers, so the infinities are kept; it returns
`null` exactly when every peer is `NaN` (or the list is empty) or the
target is `NaN`.  The transformer copy (`percentileRankT`) filters to
finite numbers and returns `null` exactly when no peer is finite or the
target is not finite, as the claim states. -/
theorem percentileRank_null_conditions :
    (∀ (arr : List JSNum) (v : JSNum),
      percentileRank arr v = none ↔ ((∀ x ∈ arr, x.jsIsNaN = true) ∨ v.jsIsNaN = true))
    ∧ (∀ (arr : List JSNum) (v : JSNum),
      percentileRankT arr v = none ↔ ((∀ x ∈ arr, x.jsIsFinite = false) ∨ v.jsIsFinite = false)) := by
  constructor
  · intro arr v
    simp only [percentileRank]
    by_cases h : (arr.filter (fun x => !x.jsIsNaN)).length = 0 ∨ v.jsIsNaN
    · rw [if_pos h]
      simp only [true_iff]
      rcases h with h | h
      · left
        intro x hx
        have := List.filter_eq_nil_iff.mp (List.length_eq_zero.mp h) x hx
        simpa using this
      · right; exact h
    · rw [if_neg h]
      push_neg at h
      obtain ⟨h1, h2⟩ := h
      constructor
      · intro hc; exact (Option.some_ne_none _ hc).elim
      · rintro (hall | hv)
        · refine absurd ?_ h1
          rw [List.filter_eq_nil_iff.mpr (fun x hx => by simp [hall x hx])]
          rfl
        · exact absurd hv (by simpa using h2)
  · intro arr v
    simp only [percentileRankT]
    by_cases h : (arr.filter (fun x => x.jsIsFinite)).length = 0 ∨ !v.jsIsFinite
    · rw [if_pos h]
      simp only [true_iff]
      rcases h with h | h
      · left
        intro x hx
        have := List.filter_eq_nil_iff.mp (List.length_eq_zero.mp h) x hx
        simpa using this
      · right; simpa using h
    · rw [if_neg h]
      push_neg at h
      obtain ⟨h1, h2⟩ := h
      constructor
      · intro hc; exact (Option.some_ne_none _ hc).elim
      · rintro (hall | hv)
        · refine absurd ?_ h1
          rw [List.filter_eq_nil_iff.mpr (fun x hx => by simp [hall x hx])]
          rfl
        · simp [hv] at h2

/-- C6: for every year in [2000, 2100] and month in [0, 11], the
lactation mapping round-trips exactly: rebuilding the calendar pair from
`(startYear, index)` with `month = (index + 9) mod 12` and
`year = startYear + (index >= 3 ? 1 : 0)` recovers the original pair. -/
theorem lactation_round_trip (y : ℤ) (m : ℕ) (_h1 : 2000 ≤ y) (_h2 : y ≤ 2100)
    (hm : m ≤ 11) :
    (lacPosFromMonth m + 9) % 12 = m ∧
    lacStartYear y m + (if 3 ≤ lacPosFromMonth m then 1 else 0) = y := by
  interval_cases m <;> simp [lacPosFromMonth, lacStartYear]

/-- Witness for C6 at year 2023, month 0 (January). -/
theorem lactation_round_trip_witness :
    (lacPosFromMonth 0 + 9) % 12 = 0 ∧
    lacStartYear 2023 0 + (if 3 ≤ lacPosFromMonth 0 then 1 else 0) = 2023 :=
  lactation_round_trip 2023 0 (by decide) (by decide) (by decide)

/-- C4: evaluation of `rowsForKpi` at the failing input.  A raw row with
`Mese = 0` is not discarded: it produces a record with `month = -1`,
against the month-range validation the claim (and the JSDoc of the
function itself) describes. -/
theorem rowsForKpi_month_zero_not_discarded :
    rowsForKpi [⟨"GOIA SILVIA".toList, [], "Sassari".toList, "urea".toList,
        JSNum.fin 2023, JSNum.fin 0, JSNum.fin 5⟩] "urea".toList =
      [⟨"GOIA SILVIA".toList, JSNum.fin 2023, JSNum.fin (-1), JSNum.fin 5⟩] := by
  show [(⟨"GOIA SILVIA".toList, JSNum.fin 2023, (JSNum.fin 0).sub1, JSNum.fin 5⟩ : KpiRow)] = _
  norm_num [JSNum.sub1]

/-- C7: for every value array of length at least 2 whose minimum and
maximum differ, the Freedman-Diaconis bin count computed by
`freedmanBins` lies in the interval [6, 15]. -/
theorem freedmanBins_bounds (values : List ℚ) (_hlen : 2 ≤ values.length)
    (_hne : listMin values ≠ listMax values) :
    6 ≤ freedmanBins values ∧ freedmanBins values ≤ 15 := by
  simp only [freedmanBins]
  split
  · omega
  · split <;> split <;> split <;> omega

/-- Witness for C7 on the two-element array `[1, 2]`. -/
theorem freedmanBins_bounds_witness :
    6 ≤ freedmanBins [1, 2] ∧ freedmanBins [1, 2] ≤ 15 :=
  freedmanBins_bounds [1, 2] (by norm_num) (by norm_num [listMin, listMax])

/-- All elements equal to the accumulator leave a `min`-fold unchanged. -/
theorem foldl_min_const (xs : List ℚ) (v : ℚ) (h : ∀ x ∈ xs, x = v) :
    xs.foldl min v = v := by
  induction xs with
  | nil => rfl
  | cons a t ih =>
    have ha : a = v := h a (List.mem_cons_self a t)
    simp only [List.foldl_cons, ha, min_self]
    exact ih (fun x hx => h x (List.mem_cons_of_mem a hx))

/-- All elements equal to the accumulator leave a `max`-fold unchanged. -/
theorem foldl_max_const (xs : List ℚ) (v : ℚ) (h : ∀ x ∈ xs, x = v) :
    xs.foldl max v = v := by
  induction xs with
  | nil => rfl
  | cons a t ih =>
    have ha : a = v := h a (List.mem_cons_self a t)
    simp only [List.foldl_cons, ha, max_self]
    exact ih (fun x hx => h x (List.mem_cons_of_mem a hx))

/-- C8: for every non-empty value array whose values are all equal to
`v`, the computed histogram has exactly one bin with edges
`[v - 0.5, v + 0.5]`, centre `v` and a count equal to the number of
values; in particular the histogram of `[7, 7, 7]` has one bin, edges
`[6.5, 7.5]` and counts `[3]`. -/
theorem computeHistogram_degenerate :
    (∀ (vals : List ℚ) (v : ℚ), vals ≠ [] → (∀ x ∈ vals, x = v) →
      computeHistogram vals =
        { bins := 1, step := 1, edges := [v - 1 / 2, v + 1 / 2], centers := [v],
          counts := [vals.length] })
    ∧ computeHistogram [7, 7, 7] =
        { bins := 1, step := 1, edges := [13 / 2, 15 / 2], centers := [7],
          counts := [3] } := by
  have main : ∀ (vals : List ℚ) (v : ℚ), vals ≠ [] → (∀ x ∈ vals, x = v) →
      computeHistogram vals =
        { bins := 1, step := 1, edges := [v - 1 / 2, v + 1 / 2], centers := [v],
          counts := [vals.length] } := by
    intro vals v hne hall
    match vals, hne with
    | x :: xs, _ =>
      have hx : x = v := hall x (List.mem_cons_self x xs)
      have hmn : listMin (x :: xs) = v := by
        simp only [listMin, hx]
        exact foldl_min_const xs v (fun a ha => hall a (List.mem_cons_of_mem x ha))
      have hmx : listMax (x :: xs) = v := by
        simp only [listMax, hx]
        exact foldl_max_const xs v (fun a ha => hall a (List.mem_cons_of_mem x ha))
      simp only [computeHistogram, hmn, hmx]
      rw [if_pos trivial]
  refine ⟨main, ?_⟩
  rw [main [7, 7, 7] 7 (List.cons_ne_nil _ _)
    (by intro x hx
        simp only [List.mem_cons, List.not_mem_nil, or_false] at hx
        rcases hx with h | h | h <;> exact h)]
  norm_num

/-- Witness for C8 on the constant array `[2, 2]`. -/
theorem computeHistogram_degenerate_witness :
    computeHistogram [2, 2] =
      { bins := 1, step := 1, edges := [2 - 1 / 2, 2 + 1 / 2], centers := [2],
        counts := [2] } :=
  computeHistogram_degenerate.1 [2, 2] 2 (List.cons_ne_nil _ _)
    (by intro x hx
        simp only [List.mem_cons, List.not_mem_nil, or_false] at hx
        rcases hx with h | h <;> exact h)

/-- The shared tail of the selector always keeps or re-adds at least one
row of the selected azienda. -/
theorem getBenchmarkRawRest_presence (rawRows fl : List RawRow) (pv az : Str)
    (haz : az ≠ []) (h : ∃ r ∈ rawRows, r.Azienda = az) :
    ∃ r ∈ getBenchmarkRawRest rawRows fl pv az, r.Azienda = az := by
  simp only [getBenchmarkRawRest]
  set fl2 := (if (if pv = [] then "tutte".toList else pv) ≠ "tutte".toList then
      match provinceNameOf (if pv = [] then "tutte".toList else pv) with
      | some pn => fl.filter (fun r => decide (r.Provincia = pn))
      | none => fl
    else fl) with hfl2
  rw [if_neg haz]
  by_cases hany : fl2.any (fun r => decide (r.Azienda = az))
  · rw [if_pos hany]
    obtain ⟨r, hr, hdec⟩ := List.any_eq_true.mp hany
    exact ⟨r, hr, of_decide_eq_true hdec⟩
  · rw [if_neg hany]
    obtain ⟨r, hr, hra⟩ := h
    refine ⟨r, List.mem_append_right _ ?_, hra⟩
    exact List.mem_filter.mpr ⟨hr, decide_eq_true hra⟩

/-- The province-filter step of the shared tail never increases the
multiplicity of any row. -/
theorem count_province_filter (fl : List RawRow) (p : Str) (r : RawRow) :
    List.count r
      (match provinceNameOf p with
       | some pn => fl.filter (fun x => decide (x.Provincia = pn))
       | none => fl) ≤ List.count r fl := by
  rcases provinceNameOf p with _ | pn
  · exact le_refl _
  · exact List.Sublist.count_le (List.filter_sublist fl) r

/-- The shared tail never duplicates rows beyond their multiplicity in the
full raw set, provided the working set did not. -/
theorem getBenchmarkRawRest_count (rawRows fl : List RawRow) (pv az : Str)
    (hfl : ∀ r, fl.count r ≤ rawRows.count r) :
    ∀ r, (getBenchmarkRawRest rawRows fl pv az).count r ≤ rawRows.count r := by
  intro r
  simp only [getBenchmarkRawRest]
  set fl2 := (if (if pv = [] then "tutte".toList else pv) ≠ "tutte".toList then
      match provinceNameOf (if pv = [] then "tutte".toList else pv) with
      | some pn => fl.filter (fun r => decide (r.Provincia = pn))
      | none => fl
    else fl) with hfl2
  have hfl2le : ∀ x : RawRow, fl2.count x ≤ rawRows.count x := by
    intro x
    rw [hfl2]
    by_cases hp : (if pv = [] then "tutte".toList else pv) ≠ "tutte".toList
    · rw [if_pos hp]
      exact le_trans (count_province_filter fl _ x) (hfl x)
    · rw [if_neg hp]
      exact hfl x
  by_cases hazn : az = []
  · rw [if_pos hazn]; exact hfl2le r
  · rw [if_neg hazn]
    by_cases hany : fl2.any (fun r => decide (r.Azienda = az))
    · rw [if_pos hany]; exact hfl2le r
    · rw [if_neg hany]
      rw [List.count_append]
      by_cases hra : r.Azienda = az
      · have hnotin : r ∉ fl2 := by
          intro hmem
          exact hany (List.any_eq_true.mpr ⟨r, hmem, decide_eq_true hra⟩)
        rw [List.count_eq_zero_of_not_mem hnotin]
        rw [List.count_filter (by exact decide_eq_true hra)]
        omega
      · have hnotin : r ∉ rawRows.filter (fun x => decide (x.Azienda = az)) := by
          intro hmem
          exact hra (of_decide_eq_true (List.mem_filter.mp hmem).2)
        rw [List.count_eq_zero_of_not_mem hnotin]
        have := hfl2le r
        omega

/-- Branch analysis of `getBenchmarkRaw`: either the result is empty, or
it contains a row of the selected azienda whenever the raw set does. -/
theorem getBenchmarkRaw_presence_aux (env : BenchEnv) (haz : env.azienda ≠ [])
    (htgt : ∃ r ∈ env.raw, r.Azienda = env.azienda) :
    getBenchmarkRaw env = [] ∨
      ∃ r ∈ getBenchmarkRaw env, r.Azienda = env.azienda := by
  obtain ⟨r0, hr0, hra0⟩ := htgt
  simp only [getBenchmarkRaw]
  by_cases hraw : env.raw = []
  · rw [if_pos hraw]
    exact Or.inl hraw
  rw [if_neg hraw]
  by_cases hmode : (if env.benchmarkType = [] then "intraAppare".toList else env.benchmarkType)
      = "intraCaseificio".toList
  · rw [if_pos hmode, if_pos haz]
    cases hcase : findCaseificio env.raw env.azienda with
    | none => exact Or.inr (getBenchmarkRawRest_presence _ _ _ _ haz ⟨r0, hr0, hra0⟩)
    | some c =>
      simp only []
      by_cases hcao : isCaoCaseificio c
      · rw [if_pos hcao]
        by_cases hempty : env.caoRaw = [] ∧ env.caoLoaderAvailable
        · rw [if_pos hempty]
          exact Or.inl rfl
        · rw [if_neg hempty]
          by_cases hload : env.caoRaw ≠ []
          · rw [if_pos hload]
            refine Or.inr ⟨r0, List.mem_append_left _ ?_, hra0⟩
            exact List.mem_filter.mpr ⟨hr0, decide_eq_true hra0⟩
          · rw [if_neg hload]
            exact Or.inr (getBenchmarkRawRest_presence _ _ _ _ haz ⟨r0, hr0, hra0⟩)
      · rw [if_neg hcao]
        exact Or.inr (getBenchmarkRawRest_presence _ _ _ _ haz ⟨r0, hr0, hra0⟩)
  · rw [if_neg hmode]
    exact Or.inr (getBenchmarkRawRest_presence _ _ _ _ haz ⟨r0, hr0, hra0⟩)

/-- C1, amended: the selector re-unions the rows of the target azienda
only when none of them survived the filters.  Hence (a) whenever the raw
set holds rows of the selected azienda and the result is non-empty, the
result contains at least one such row, and (b) outside the CAO
supplier-sample branch no row is ever duplicated beyond its multiplicity
in the raw set.  The original claim, that every raw row of the target is
always included, is refuted by the counterexample below. -/
theorem getBenchmarkRaw_target_presence (env : BenchEnv) :
    (env.azienda ≠ [] → (∃ r ∈ env.raw, r.Azienda = env.azienda) →
      getBenchmarkRaw env ≠ [] →
      ∃ r ∈ getBenchmarkRaw env, r.Azienda = env.azienda)
    ∧ (takesCaoPath env = false →
      ∀ r : RawRow, (getBenchmarkRaw env).count r ≤ env.raw.count r) := by
  constructor
  · intro haz htgt hne
    rcases getBenchmarkRaw_presence_aux env haz htgt with h | h
    · exact absurd h hne
    · exact h
  · intro hnc r
    simp only [getBenchmarkRaw]
    by_cases hraw : env.raw = []
    · rw [if_pos hraw]
    rw [if_neg hraw]
    by_cases hmode : (if env.benchmarkType = [] then "intraAppare".toList else env.benchmarkType)
        = "intraCaseificio".toList
    · rw [if_pos hmode]
      cases hcase : (if env.azienda ≠ [] then findCaseificio env.raw env.azienda else none) with
      | none => exact getBenchmarkRawRest_count _ _ _ _ (fun x => le_refl _) r
      | some c =>
        simp only []
        by_cases hcao : isCaoCaseificio c
        · exfalso
          apply Bool.eq_false_iff.mp hnc
          unfold takesCaoPath
          rw [hcase]
          simp [hcao]
          exact hmode
        · rw [if_neg hcao]
          exact getBenchmarkRawRest_count _ _ _ _
            (fun x => List.Sublist.count_le (List.filter_sublist env.raw) x) r
    · rw [if_neg hmode]
      exact getBenchmarkRawRest_count _ _ _ _ (fun x => le_refl _) r
/-- C1, counterexample: with the province filter set to Sassari, the
Nuoro row of azienda `A` is dropped from the result even though it
belongs to the target entity, because one other row of `A` survives the
filter and so no re-union happens. -/
theorem getBenchmarkRaw_drops_filtered_target_rows :
    rowNuoro ∈ benchEnvCE.raw ∧ rowNuoro.Azienda = benchEnvCE.azienda ∧
      rowNuoro ∉ getBenchmarkRaw benchEnvCE := by
  decide
/-- Witness for C1 on a one-row environment with no province filter. -/
theorem getBenchmarkRaw_target_presence_witness :
    (∃ r ∈ getBenchmarkRaw benchEnvW, r.Azienda = benchEnvW.azienda) ∧
      (∀ r : RawRow, (getBenchmarkRaw benchEnvW).count r ≤ benchEnvW.raw.count r) :=
  ⟨(getBenchmarkRaw_target_presence benchEnvW).1 (by decide)
      ⟨rowSassari, by decide, by decide⟩ (by decide),
   fun r => (getBenchmarkRaw_target_presence benchEnvW).2 (by decide) r⟩

/-- Every character emitted by `natStrAux` is a decimal digit character. -/
theorem natStrAux_digits (fuel : ℕ) : ∀ (n : ℕ), ∀ c ∈ natStrAux fuel n,
    ∃ d, d < 10 ∧ c = Nat.digitChar d := by
  induction fuel with
  | zero => intro n c hc; simp [natStrAux] at hc
  | succ f ih =>
    intro n c hc
    simp only [natStrAux] at hc
    by_cases hn : n = 0
    · rw [if_pos hn] at hc; simp at hc
    · rw [if_neg hn] at hc
      rcases List.mem_cons.mp hc with h | h
      · exact ⟨n % 10, Nat.mod_lt n (by norm_num), h⟩
      · exact ih (n / 10) c h

/-- Decimal digit characters parse back to their value and are neither a
minus sign nor the pipe or dash separators. -/
theorem digitChar_props : ∀ d < 10, digitVal (Nat.digitChar d) = some d ∧
    Nat.digitChar d ≠ '-' ∧ Nat.digitChar d ≠ '|' := by
  decide

/-- The parser accumulator distributes over append. -/
theorem parseNatAux_append (l1 l2 : List Char) : ∀ (a : ℕ),
    parseNatAux a (l1 ++ l2) =
      match parseNatAux a l1 with
      | some b => parseNatAux b l2
      | none => none := by
  induction l1 with
  | nil => intro a; rfl
  | cons c t ih =>
    intro a
    simp only [List.cons_append, parseNatAux]
    rcases digitVal c with _ | d
    · rfl
    · exact ih _

/-- Parsing the reversed digit list of `natStrAux` recovers the number. -/
theorem parseNatAux_natStrAux (fuel : ℕ) : ∀ (n : ℕ), n ≤ fuel → ∀ (a : ℕ),
    parseNatAux a (natStrAux fuel n).reverse =
      some (a * 10 ^ (natStrAux fuel n).length + n) := by
  induction fuel with
  | zero =>
    intro n hn a
    interval_cases n
    simp [natStrAux, parseNatAux]
  | succ f ih =>
    intro n hn a
    by_cases hn0 : n = 0
    · subst hn0
      simp [natStrAux, parseNatAux]
    · have hd : natStrAux (f + 1) n = Nat.digitChar (n % 10) :: natStrAux f (n / 10) := by
        simp [natStrAux, hn0]
      have hdiv : n / 10 ≤ f := by
        have h1 : n / 10 < n := Nat.div_lt_self (Nat.pos_of_ne_zero hn0) (by norm_num)
        omega
      rw [hd]
      simp only [List.reverse_cons]
      rw [parseNatAux_append]
      rw [ih (n / 10) hdiv a]
      have hdig := (digitChar_props (n % 10) (Nat.mod_lt n (by norm_num))).1
      simp only [parseNatAux, hdig]
      have hmod : n / 10 * 10 + n % 10 = n := by omega
      have hkey : (a * 10 ^ (natStrAux f (n / 10)).length + n / 10) * 10 + n % 10 =
          a * 10 ^ (natStrAux f (n / 10)).length.succ + n := by
        calc (a * 10 ^ (natStrAux f (n / 10)).length + n / 10) * 10 + n % 10
            = a * (10 ^ (natStrAux f (n / 10)).length * 10) + (n / 10 * 10 + n % 10) := by
              ring
          _ = a * 10 ^ (natStrAux f (n / 10)).length.succ + n := by
              rw [hmod, pow_succ]
      rw [hkey]
      simp [List.length_cons]

/-- Parsing the decimal representation of a natural number recovers it. -/
theorem parseNat_natStr (n : ℕ) : parseNat (natStr n) = some n := by
  by_cases hn : n = 0
  · subst hn; rfl
  · unfold natStr parseNat
    rw [if_neg hn]
    rw [parseNatAux_natStrAux n n (le_refl n) 0]
    simp

/-- Every character of `natStr` is a digit character. -/
theorem natStr_digits (n : ℕ) : ∀ c ∈ natStr n, ∃ d, d < 10 ∧ c = Nat.digitChar d := by
  intro c hc
  unfold natStr at hc
  by_cases hn : n = 0
  · rw [if_pos hn] at hc
    simp at hc
    exact ⟨0, by norm_num, hc⟩
  · rw [if_neg hn] at hc
    exact natStrAux_digits n n c (List.mem_reverse.mp hc)

/-- The pipe separator never occurs in an integer representation. -/
theorem intStr_no_bar (i : ℤ) : '|' ∉ intStr i := by
  intro hmem
  unfold intStr at hmem
  by_cases hi : i < 0
  · rw [if_pos hi] at hmem
    rcases List.mem_cons.mp hmem with h | h
    · exact absurd h (by decide)
    · obtain ⟨d, hd, hc⟩ := natStr_digits _ _ h
      exact (digitChar_props d hd).2.2 hc.symm
  · rw [if_neg hi] at hmem
    obtain ⟨d, hd, hc⟩ := natStr_digits _ _ hmem
    exact (digitChar_props d hd).2.2 hc.symm

/-- An integer representation never starts with a digit that parses as a
minus sign, so parsing recovers the integer. -/
theorem parseIntStr_intStr (i : ℤ) : parseIntStr (intStr i) = some i := by
  have hhead : ∀ (n : ℕ), (natStr n).head? ≠ some '-' := by
    intro n h
    rcases hs : natStr n with _ | ⟨c, t⟩
    · rw [hs] at h; simp at h
    · rw [hs] at h
      simp at h
      obtain ⟨d, hd, hc⟩ := natStr_digits n c (hs ▸ List.mem_cons_self c t)
      exact (digitChar_props d hd).2.1 (hc ▸ h)
  unfold parseIntStr intStr
  by_cases hi : i < 0
  · rw [if_pos hi]
    simp only [List.head?_cons, List.tail_cons, if_pos rfl]
    rw [parseNat_natStr]
    have hv : -((i.natAbs : ℕ) : ℤ) = i := by omega
    simp [hv]
    rw [abs_of_neg hi]
    exact neg_neg i
  · rw [if_neg hi]
    rw [if_neg (hhead i.toNat)]
    rw [parseNat_natStr]
    have hv : ((i.toNat : ℕ) : ℤ) = i := by omega
    simp [hv]

/-- Pushing onto a key makes that key readable, with the value appended. -/
theorem alGet_alPush_self (k : Str) (v : JSNum) (l : List (Str × List JSNum)) :
    alGet k (alPush k v l) = some ((alGet k l).getD [] ++ [v]) := by
  induction l with
  | nil => simp [alPush, alGet]
  | cons kv t ih =>
    obtain ⟨k', vs⟩ := kv
    by_cases hk : k' = k
    · subst hk
      simp [alPush, alGet]
    · simp only [alPush, alGet, if_neg hk]
      exact ih

/-- Pushing onto a different key leaves a lookup unchanged. -/
theorem alGet_alPush_ne (k k' : Str) (v : JSNum) (l : List (Str × List JSNum))
    (h : k' ≠ k) : alGet k' (alPush k v l) = alGet k' l := by
  induction l with
  | nil =>
    simp only [alPush, alGet]
    rw [if_neg (Ne.symm h)]
  | cons kv t ih =>
    obtain ⟨k'', vs⟩ := kv
    by_cases hk : k'' = k
    · subst hk
      simp only [alPush, if_pos rfl, alGet]
      rw [if_neg (Ne.symm h), if_neg (Ne.symm h)]
    · simp only [alPush, if_neg hk, alGet]
      by_cases hk2 : k'' = k'
      · rw [if_pos hk2, if_pos hk2]
      · rw [if_neg hk2, if_neg hk2]
        exact ih

/-- The one-step `filter` view of group values. -/
theorem valsOf_cons (r : CanonRec) (t : List CanonRec) (k : Str) :
    valsOf (r :: t) k =
      if recKey r = k then r.value :: valsOf t k else valsOf t k := by
  by_cases h : recKey r = k
  · rw [if_pos h]
    simp [valsOf, List.filter_cons, h]
  · rw [if_neg h]
    simp [valsOf, List.filter_cons, h]

/-- Lookup in the fold that builds the grouping map, for an arbitrary
initial accumulator. -/
theorem foldl_alPush_get (recs : List CanonRec) : ∀ (acc : List (Str × List JSNum)) (k : Str),
    alGet k (recs.foldl (fun acc r => alPush (recKey r) r.value acc) acc) =
      match alGet k acc with
      | some vs => some (vs ++ valsOf recs k)
      | none => if valsOf recs k = [] then none else some (valsOf recs k) := by
  induction recs with
  | nil =>
    intro acc k
    rcases h : alGet k acc with _ | vs <;> simp [valsOf, h]
  | cons r t ih =>
    intro acc k
    simp only [List.foldl_cons]
    rw [ih (alPush (recKey r) r.value acc) k, valsOf_cons]
    by_cases hk : recKey r = k
    · subst hk
      rw [alGet_alPush_self]
      rcases h : alGet (recKey r) acc with _ | vs
      · simp only [h, Option.getD_none, List.nil_append, if_pos rfl]
        simp
      · simp only [h, Option.getD_some, if_pos rfl]
        simp
    · rw [alGet_alPush_ne _ _ _ _ (Ne.symm hk), if_neg hk]

/-- Lookup in the grouping map yields exactly the values of the group. -/
theorem groupByKey_get (recs : List CanonRec) (k : Str) :
    alGet k (groupByKey recs) =
      if valsOf recs k = [] then none else some (valsOf recs k) := by
  have := foldl_alPush_get recs [] k
  simpa [groupByKey, alGet] using this

/-- Keys of entries after a push: the pushed key or an existing key. -/
theorem mem_alPush_keys (k : Str) (v : JSNum) (l : List (Str × List JSNum)) :
    ∀ kv ∈ alPush k v l, kv.1 = k ∨ ∃ kv' ∈ l, kv'.1 = kv.1 := by
  induction l with
  | nil =>
    intro kv hkv
    simp [alPush] at hkv
    subst hkv
    exact Or.inl rfl
  | cons hd t ih =>
    obtain ⟨k', vs⟩ := hd
    intro kv hkv
    by_cases hk : k' = k
    · subst hk
      simp only [alPush, if_pos rfl] at hkv
      rcases List.mem_cons.mp hkv with h | h
      · subst h; exact Or.inl rfl
      · exact Or.inr ⟨kv, List.mem_cons_of_mem _ h, rfl⟩
    · simp only [alPush, if_neg hk] at hkv
      rcases List.mem_cons.mp hkv with h | h
      · subst h; exact Or.inr ⟨(k', vs), List.mem_cons_self _ _, rfl⟩
      · rcases ih kv h with h1 | ⟨kv', hkv', he⟩
        · exact Or.inl h1
        · exact Or.inr ⟨kv', List.mem_cons_of_mem _ hkv', he⟩

/-- Every key of the grouping map is the key of some input record. -/
theorem groupByKey_keys_from (recs : List CanonRec) :
    ∀ kv ∈ groupByKey recs, ∃ r ∈ recs, recKey r = kv.1 := by
  suffices h : ∀ (acc : List (Str × List JSNum)),
      ∀ kv ∈ recs.foldl (fun acc r => alPush (recKey r) r.value acc) acc,
        (∃ kv' ∈ acc, kv'.1 = kv.1) ∨ ∃ r ∈ recs, recKey r = kv.1 by
    intro kv hkv
    rcases h [] kv hkv with ⟨kv', hkv', _⟩ | h2
    · simp at hkv'
    · exact h2
  induction recs with
  | nil =>
    intro acc kv hkv
    exact Or.inl ⟨kv, hkv, rfl⟩
  | cons r t ih =>
    intro acc kv hkv
    simp only [List.foldl_cons] at hkv
    rcases ih (alPush (recKey r) r.value acc) kv hkv with ⟨kv', hkv', he⟩ | ⟨r', hr', he⟩
    · rcases mem_alPush_keys _ _ _ kv' hkv' with h1 | ⟨kv'', hkv'', he2⟩
      · exact Or.inr ⟨r, List.mem_cons_self _ _, h1 ▸ he⟩
      · exact Or.inl ⟨kv'', hkv'', he ▸ he2⟩
    · exact Or.inr ⟨r', List.mem_cons_of_mem _ hr', he⟩

/-- A push preserves key distinctness. -/
theorem alPush_pairwise (k : Str) (v : JSNum) (l : List (Str × List JSNum))
    (h : l.Pairwise (fun a b => a.1 ≠ b.1)) :
    (alPush k v l).Pairwise (fun a b => a.1 ≠ b.1) := by
  induction l with
  | nil => simp [alPush]
  | cons hd t ih =>
    obtain ⟨k', vs⟩ := hd
    rcases List.pairwise_cons.mp h with ⟨hhd, ht⟩
    by_cases hk : k' = k
    · subst hk
      simp only [alPush, if_pos rfl]
      exact List.pairwise_cons.mpr ⟨hhd, ht⟩
    · simp only [alPush, if_neg hk]
      refine List.pairwise_cons.mpr ⟨?_, ih ht⟩
      intro kv hkv
      rcases mem_alPush_keys _ _ _ kv hkv with h1 | ⟨kv', hkv', he⟩
      · rw [h1]; exact hk
      · rw [← he]; exact hhd kv' hkv'

/-- The grouping map has pairwise distinct keys. -/
theorem groupByKey_pairwise (recs : List CanonRec) :
    (groupByKey recs).Pairwise (fun a b => a.1 ≠ b.1) := by
  suffices h : ∀ (acc : List (Str × List JSNum)),
      acc.Pairwise (fun a b => a.1 ≠ b.1) →
      (recs.foldl (fun acc r => alPush (recKey r) r.value acc) acc).Pairwise
        (fun a b => a.1 ≠ b.1) from h [] List.Pairwise.nil
  induction recs with
  | nil => intro acc hacc; exact hacc
  | cons r t ih =>
    intro acc hacc
    exact ih _ (alPush_pairwise _ _ _ hacc)

/-- A successful lookup points at a member entry. -/
theorem alGet_mem (k : Str) (l : List (Str × List JSNum)) (vs : List JSNum)
    (h : alGet k l = some vs) : (k, vs) ∈ l := by
  induction l with
  | nil => simp [alGet] at h
  | cons hd t ih =>
    obtain ⟨k', vs'⟩ := hd
    by_cases hk : k' = k
    · subst hk
      simp [alGet] at h
      subst h
      exact List.mem_cons_self _ _
    · simp only [alGet, if_neg hk] at h
      exact List.mem_cons_of_mem _ (ih h)

/-- In a map with distinct keys, every member entry is what lookup
returns. -/
theorem alGet_of_mem (l : List (Str × List JSNum))
    (hnd : l.Pairwise (fun a b => a.1 ≠ b.1)) :
    ∀ kv ∈ l, alGet kv.1 l = some kv.2 := by
  induction l with
  | nil => intro kv hkv; simp at hkv
  | cons hd t ih =>
    obtain ⟨k', vs'⟩ := hd
    rcases List.pairwise_cons.mp hnd with ⟨hhd, ht⟩
    intro kv hkv
    rcases List.mem_cons.mp hkv with h | h
    · subst h
      simp [alGet]
    · have hne : k' ≠ kv.1 := hhd kv h
      simp only [alGet, if_neg hne]
      exact ih ht kv h

/-- The grouping key is the `'|'`-intercalation of its three parts. -/
theorem keyOf_eq_intercalate (y m : ℤ) (az : Str) :
    keyOf y m az = List.intercalate ['|'] [intStr y, intStr m, az] := by
  simp [keyOf, List.intercalate, List.intersperse]

/-- Splitting a grouping key whose azienda part is `'|'`-free recovers the
three parts. -/
theorem keyOf_splitOn (y m : ℤ) (az : Str) (haz : '|' ∉ az) :
    (keyOf y m az).splitOn '|' = [intStr y, intStr m, az] := by
  rw [keyOf_eq_intercalate]
  apply List.splitOn_intercalate
  · intro l hl
    simp only [List.mem_cons, List.not_mem_nil, or_false] at hl
    rcases hl with h | h | h
    · exact h ▸ intStr_no_bar y
    · exact h ▸ intStr_no_bar m
    · exact h ▸ haz
  · simp

/-- Integer stringification is injective. -/
theorem intStr_inj {i j : ℤ} (h : intStr i = intStr j) : i = j := by
  have hi := parseIntStr_intStr i
  rw [h, parseIntStr_intStr j] at hi
  exact (Option.some.injEq _ _).mp hi.symm

/-- Grouping keys with `'|'`-free azienda parts are injective in the
(year, month, azienda) triple. -/
theorem keyOf_inj {y1 m1 : ℤ} {az1 : Str} {y2 m2 : ℤ} {az2 : Str}
    (h1 : '|' ∉ az1) (h2 : '|' ∉ az2) (h : keyOf y1 m1 az1 = keyOf y2 m2 az2) :
    y1 = y2 ∧ m1 = m2 ∧ az1 = az2 := by
  have hs : ([intStr y1, intStr m1, az1] : List Str) = [intStr y2, intStr m2, az2] := by
    rw [← keyOf_splitOn y1 m1 az1 h1, ← keyOf_splitOn y2 m2 az2 h2, h]
  simp only [List.cons.injEq, and_true] at hs
  exact ⟨intStr_inj hs.1, intStr_inj hs.2.1, hs.2.2⟩

/-- The group of a `'|'`-free key, viewed through `valsOf`, is the
(azienda, year, month) group. -/
theorem valsOf_keyOf (recs : List CanonRec) (hbar : ∀ r ∈ recs, '|' ∉ r.Azienda)
    (az : Str) (y m : ℤ) (haz : '|' ∉ az) :
    valsOf recs (keyOf y m az) = groupVals recs az y m := by
  unfold valsOf groupVals
  congr 1
  apply List.filter_congr
  intro r hr
  have hiff : (recKey r = keyOf y m az) ↔ (r.Azienda = az ∧ r.year = y ∧ r.month = m) := by
    constructor
    · intro h
      obtain ⟨hy, hm, ha⟩ := keyOf_inj (hbar r hr) haz h
      exact ⟨ha, hy, hm⟩
    · rintro ⟨ha, hy, hm⟩
      rw [recKey, ha, hy, hm]
  exact decide_eq_decide.mpr hiff

/-- Each output row of `monthlyAggregate` takes its triple from an input
record and its value from the aggregation of the group of that triple. -/
theorem monthlyAggregate_mem (recs : List CanonRec) (kpi : Str)
    (hbar : ∀ r ∈ recs, '|' ∉ r.Azienda) :
    ∀ a ∈ monthlyAggregate recs kpi,
      (∃ r ∈ recs, r.Azienda = a.Azienda ∧ r.year = a.year ∧ r.month = a.month) ∧
      some a.value = aggFor kpi (groupVals recs a.Azienda a.year a.month) := by
  intro a ha
  obtain ⟨kv, hkv, hf⟩ := List.mem_filterMap.mp ha
  obtain ⟨r0, hr0, hkey⟩ := groupByKey_keys_from recs kv hkv
  have haz0 : '|' ∉ r0.Azienda := hbar r0 hr0
  have hsplit : kv.1.splitOn '|' = [intStr r0.year, intStr r0.month, r0.Azienda] := by
    rw [← hkey]
    exact keyOf_splitOn r0.year r0.month r0.Azienda haz0
  rcases hx : aggFor kpi kv.2 with _ | x
  · rw [hx] at hf; simp at hf
  · rw [hx] at hf
    simp only [hsplit, Option.map, List.getD, Option.some.injEq] at hf
    have hval : kv.2 = valsOf recs kv.1 := by
      have hget := alGet_of_mem (groupByKey recs) (groupByKey_pairwise recs) kv hkv
      rw [groupByKey_get recs kv.1] at hget
      by_cases hv : valsOf recs kv.1 = []
      · rw [if_pos hv] at hget; exact absurd hget (by simp)
      · rw [if_neg hv] at hget
        exact ((Option.some.injEq _ _).mp hget).symm
    subst hf
    refine ⟨⟨r0, hr0, ?_, ?_, ?_⟩, ?_⟩
    · simp [parseIntStr_intStr]
    · simp [parseIntStr_intStr]
    · simp [parseIntStr_intStr]
    · rw [hx.symm, hval]
      congr 1
      simp only [List.get?_cons_succ, List.get?_cons_zero, Option.getD_some,
        parseIntStr_intStr]
      rw [← hkey]
      exact valsOf_keyOf recs hbar r0.Azienda r0.year r0.month haz0

/-- C5: every output row of `monthlyAggregate` carries the aggregate of
its (entityId, year, month) group: the arithmetic mean of the finite
values for a linear KPI and `exp(mean(ln v))` over the strictly positive
finite values for a log KPI; a group whose aggregate is `null` produces
no output row at all, and a non-empty group with a non-null aggregate
produces one; finally, the geometric aggregation of `[100, 200, 400]` is
exactly `200`.  (Entity ids are assumed free of the internal `'|'`
separator; the degenerate separator case is settled under C9.) -/
theorem monthlyAggregate_group_mean :
    (∀ (recs : List CanonRec) (kpi : Str), (∀ r ∈ recs, '|' ∉ r.Azienda) →
      ∀ a ∈ monthlyAggregate recs kpi,
        some a.value = aggFor kpi (groupVals recs a.Azienda a.year a.month))
    ∧ (∀ (recs : List CanonRec) (kpi : Str) (az : Str) (y m : ℤ),
        (∀ r ∈ recs, '|' ∉ r.Azienda) →
        aggFor kpi (groupVals recs az y m) = none →
        ∀ a ∈ monthlyAggregate recs kpi, ¬(a.Azienda = az ∧ a.year = y ∧ a.month = m))
    ∧ (∀ (recs : List CanonRec) (kpi : Str) (az : Str) (y m : ℤ),
        (∀ r ∈ recs, '|' ∉ r.Azienda) →
        groupVals recs az y m ≠ [] → aggFor kpi (groupVals recs az y m) ≠ none →
        ∃ a ∈ monthlyAggregate recs kpi, a.Azienda = az ∧ a.year = y ∧ a.month = m)
    ∧ aggGeometric [JSNum.fin 100, JSNum.fin 200, JSNum.fin 400] = some 200 := by
  refine ⟨?_, ?_, ?_, ?_⟩
  · intro recs kpi hbar a ha
    exact (monthlyAggregate_mem recs kpi hbar a ha).2
  · intro recs kpi az y m hbar hnone a ha ⟨h1, h2, h3⟩
    have := (monthlyAggregate_mem recs kpi hbar a ha).2
    rw [h1, h2, h3, hnone] at this
    exact Option.some_ne_none _ this
  · intro recs kpi az y m hbar hne hsome
    have hr0 : ∃ r ∈ recs, r.Azienda = az ∧ r.year = y ∧ r.month = m := by
      rcases hg : (recs.filter (fun r => decide (r.Azienda = az ∧ r.year = y ∧ r.month = m)))
          with _ | ⟨r1, t1⟩
      · exact absurd (by unfold groupVals; rw [hg]; simp) hne
      · have : r1 ∈ recs.filter (fun r => decide (r.Azienda = az ∧ r.year = y ∧ r.month = m)) := by
          rw [hg]; exact List.mem_cons_self _ _
        obtain ⟨hmem, hdec⟩ := List.mem_filter.mp this
        obtain ⟨h1, h2, h3⟩ := of_decide_eq_true hdec
        exact ⟨r1, hmem, h1, h2, h3⟩
    obtain ⟨r1, hr1, ha1, hy1, hm1⟩ := hr0
    have haz : '|' ∉ az := ha1 ▸ hbar r1 hr1
    have hvk : valsOf recs (keyOf y m az) = groupVals recs az y m :=
      valsOf_keyOf recs hbar az y m haz
    have hget : alGet (keyOf y m az) (groupByKey recs) = some (groupVals recs az y m) := by
      rw [groupByKey_get, hvk, if_neg hne]
    have hmem : (keyOf y m az, groupVals recs az y m) ∈ groupByKey recs :=
      alGet_mem _ _ _ hget
    rcases hx : aggFor kpi (groupVals recs az y m) with _ | x
    · exact absurd hx hsome
    refine ⟨⟨az, y, m, x⟩, List.mem_filterMap.mpr
      ⟨(keyOf y m az, groupVals recs az y m), hmem, ?_⟩, rfl, rfl, rfl⟩
    simp only [keyOf_splitOn y m az haz, hx, Option.map, List.getD,
      List.get?_cons_succ, List.get?_cons_zero, Option.getD_some, parseIntStr_intStr]
  · simp only [aggGeometric]
    have hfil : ([JSNum.fin 100, JSNum.fin 200, JSNum.fin 400].filterMap (fun v =>
        match v with
        | JSNum.fin q => if 0 < q then some q else none
        | _ => none)) = [(100 : ℚ), 200, 400] := by
      norm_num [List.filterMap_cons]
    rw [hfil]
    norm_num
    rw [← Real.log_mul (by norm_num) (by norm_num),
      ← Real.log_mul (by norm_num) (by norm_num)]
    rw [show (100 : ℝ) * (200 * 400) = 200 ^ (3 : ℕ) by norm_num]
    rw [Real.log_pow]
    rw [show ((3 : ℕ) : ℝ) * Real.log 200 / 3 = Real.log 200 by push_cast; ring]
    rw [Real.exp_log (by norm_num)]

/-- Each produced row of a group entry determines the key of its entry: the key
is rebuilt from the row's own (year, month, azienda) triple. -/
theorem groupEntry_out_key (recs : List CanonRec) (kpi : Str)
    (hbar : ∀ r ∈ recs, '|' ∉ r.Azienda) (kv : Str × List JSNum)
    (hkv : kv ∈ groupByKey recs) (b : AggRow)
    (hb : (aggFor kpi kv.2).map (fun x =>
        (⟨(kv.1.splitOn '|').getD 2 [],
          (parseIntStr ((kv.1.splitOn '|').getD 0 [])).getD 0,
          (parseIntStr ((kv.1.splitOn '|').getD 1 [])).getD 0, x⟩ : AggRow)) = some b) :
    kv.1 = keyOf b.year b.month b.Azienda := by
  obtain ⟨r0, hr0, hkey⟩ := groupByKey_keys_from recs kv hkv
  have haz0 : '|' ∉ r0.Azienda := hbar r0 hr0
  have hsplit : kv.1.splitOn '|' = [intStr r0.year, intStr r0.month, r0.Azienda] := by
    rw [← hkey]
    exact keyOf_splitOn r0.year r0.month r0.Azienda haz0
  rcases hx : aggFor kpi kv.2 with _ | x
  · rw [hx] at hb; simp at hb
  · rw [hx] at hb
    simp only [hsplit, Option.map, List.getD, List.get?_cons_succ, List.get?_cons_zero,
      Option.getD_some, parseIntStr_intStr, Option.some.injEq] at hb
    subst hb
    exact hkey.symm

/-- C9, amended: when no entity id contains the internal `'|'`
separator, `monthlyAggregate` produces at most one output row per
(entityId, year, month) triple and every output row takes its triple from
the records collapsed into it.  The original unrestricted claim is
refuted by the counterexample below. -/
theorem monthlyAggregate_key_uniqueness :
    ∀ (recs : List CanonRec) (kpi : Str), (∀ r ∈ recs, '|' ∉ r.Azienda) →
      (monthlyAggregate recs kpi).Pairwise
        (fun a b => ¬(a.Azienda = b.Azienda ∧ a.year = b.year ∧ a.month = b.month)) ∧
      ∀ a ∈ monthlyAggregate recs kpi, ∃ r ∈ recs,
        r.Azienda = a.Azienda ∧ r.year = a.year ∧ r.month = a.month := by
  intro recs kpi hbar
  constructor
  · unfold monthlyAggregate
    rw [List.pairwise_filterMap]
    apply List.Pairwise.imp_of_mem ?_ (groupByKey_pairwise recs)
    intro kv kv' hkv hkv' hne b hb b' hb'
    simp only [Option.mem_def] at hb hb'
    rintro ⟨e1, e2, e3⟩
    apply hne
    rw [groupEntry_out_key recs kpi hbar kv hkv b hb,
      groupEntry_out_key recs kpi hbar kv' hkv' b' hb', e1, e2, e3]
  · intro a ha
    exact (monthlyAggregate_mem recs kpi hbar a ha).1

/-- C9, counterexample: entity names containing `'|'` break the
grouping-key parsing: records of the two distinct entities `A|B` and
`A|C` produce two output rows that both carry the truncated entity id
`A` and the same (entityId, year, month) triple, an id belonging to no
input record. -/
theorem monthlyAggregate_pipe_collision :
    (monthlyAggregate recsPipe "urea".toList).map (fun a => (a.Azienda, a.year, a.month)) =
      [("A".toList, 2023, 5), ("A".toList, 2023, 5)] ∧
    ∀ r ∈ recsPipe, r.Azienda ≠ "A".toList := by
  constructor
  · decide
  · decide

/-- Witness for C9 on a one-record separator-free input. -/
theorem monthlyAggregate_key_uniqueness_witness :
    ((monthlyAggregate [(⟨"A".toList, 2023, 5, JSNum.fin 4⟩ : CanonRec)] "urea".toList).Pairwise
      (fun a b => ¬(a.Azienda = b.Azienda ∧ a.year = b.year ∧ a.month = b.month))) ∧
    ∀ a ∈ monthlyAggregate [(⟨"A".toList, 2023, 5, JSNum.fin 4⟩ : CanonRec)] "urea".toList,
      ∃ r ∈ [(⟨"A".toList, 2023, 5, JSNum.fin 4⟩ : CanonRec)],
        r.Azienda = a.Azienda ∧ r.year = a.year ∧ r.month = a.month :=
  monthlyAggregate_key_uniqueness [⟨"A".toList, 2023, 5, JSNum.fin 4⟩] "urea".toList (by decide)

/-- Appending a fresh entry makes it visible to lookup. -/
theorem alGet_append_fresh {β : Type} (k : Str) (v : β) (l : List (Str × β))
    (h : alGet k l = none) : alGet k (l ++ [(k, v)]) = some v := by
  induction l with
  | nil => simp [alGet]
  | cons hd t ih =>
    obtain ⟨k', v'⟩ := hd
    by_cases hk : k' = k
    · subst hk
      simp [alGet] at h
    · simp only [alGet, if_neg hk] at h ⊢
      exact ih h

/-- C10: the year-month cache is keyed only by the KPI key.  On a cache
hit `getYMMap` returns the cached map untouched regardless of the rows
argument, so after a first call builds the map from one row set, a second
call with any other row set returns exactly the first map until the cache
is cleared. -/
theorem getYMMap_cache_stale :
    (∀ (cacheYm : List (Str × YMMap)) (rows : List CanonRec) (k : Str) (m : YMMap),
      alGet k cacheYm = some m → getYMMap cacheYm rows k = (m, cacheYm))
    ∧ (∀ (cacheYm : List (Str × YMMap)) (rows1 rows2 : List CanonRec) (k : Str),
      (getYMMap (getYMMap cacheYm rows1 k).2 rows2 k).1 = (getYMMap cacheYm rows1 k).1) := by
  have hhit : ∀ (cacheYm : List (Str × YMMap)) (rows : List CanonRec) (k : Str) (m : YMMap),
      alGet k cacheYm = some m → getYMMap cacheYm rows k = (m, cacheYm) := by
    intro cache rows k m h
    unfold getYMMap
    rw [h]
  refine ⟨hhit, ?_⟩
  intro cache rows1 rows2 k
  rcases h : alGet k cache with _ | m
  · have h1 : getYMMap cache rows1 k =
        (buildYMMap rows1 k, cache ++ [(k, buildYMMap rows1 k)]) := by
      unfold getYMMap
      rw [h]
    rw [h1]
    rw [hhit _ rows2 k (buildYMMap rows1 k) (alGet_append_fresh k _ cache h)]
  · rw [hhit cache rows1 k m h, hhit cache rows2 k m h]

/-- Witness for C10 on a pre-populated one-entry cache. -/
theorem getYMMap_cache_stale_witness :
    getYMMap [("urea".toList, ([] : YMMap))] [] "urea".toList =
      (([] : YMMap), [("urea".toList, ([] : YMMap))]) :=
  getYMMap_cache_stale.1 [("urea".toList, [])] [] "urea".toList [] rfl

/-- Witness for C2 on the singleton peer array `[1]`. -/
theorem percentileRank_tie_formula_witness :
    percentileRank (([1] : List ℚ).map JSNum.fin) (JSNum.fin 1) =
      some (jsRound ((((([1] : List ℚ).filter (fun x => x < 1)).length : ℚ) +
        1 / 2 * ((([1] : List ℚ).filter (fun x => x = 1)).length : ℚ)) /
          ((([1] : List ℚ)).length : ℚ) * 100)) :=
  percentileRank_tie_formula.1 [1] 1 (by decide)

/-- Witness for C5 on a one-record input with the linear KPI urea. -/
theorem monthlyAggregate_group_mean_witness :
    (∀ a ∈ monthlyAggregate recsW "urea".toList,
      some a.value = aggFor "urea".toList (groupVals recsW a.Azienda a.year a.month)) ∧
    ∃ a ∈ monthlyAggregate recsW "urea".toList,
      a.Azienda = "A".toList ∧ a.year = 2023 ∧ a.month = 5 :=
  ⟨fun a ha => monthlyAggregate_group_mean.1 recsW "urea".toList (by decide) a ha,
   monthlyAggregate_group_mean.2.2.1 recsW "urea".toList "A".toList 2023 5 (by decide)
     (by decide)
     (by
       intro hno
       rw [show aggFor "urea".toList (groupVals recsW "A".toList 2023 5) =
           (aggArithmetic [JSNum.fin 4]).map (fun q => ((q : ℚ) : ℝ)) from rfl] at hno
       rcases hagg : aggArithmetic [JSNum.fin 4] with _ | q
       · simp [aggArithmetic] at hagg
       · rw [hagg] at hno
         simp at hno)⟩
